import Mathlib

/-!
Shallow embedding of the student-roster CSV import/export core
(source: src/unnamed/part_000, functions exportToCsv, handleCsvImport,
filteredStudents; record type: src/types.ts).

Modelling conventions:
  - JS strings are Lean String / List Char; JS numbers holding integer
    values are Int (all claims involve small integers, where JS number
    arithmetic is exact).
  - The Student record omits the two impure fields id (crypto.randomUUID)
    and createdAt (Date.now); every claim quantifies modulo those fields.
  - Array.prototype.sort with a consistent comparator is stable and sorted
    per ES2019; any stable sort agreeing with the comparator produces the
    same list, so it is modelled by insertion sort on the comparator.
  - String.prototype.localeCompare on the group values A, B, C agrees with
    code-point comparison, which is how localeCmp is modelled.
-/

namespace Shool

/-- Code points of the JS regex class \s and of String.prototype.trim:
tab 9, LF 10, VT 11, FF 12, CR 13, space 32, NBSP 160, Ogham 5760,
U+2000..U+200A, LS 8232, PS 8233, NNBSP 8239, MMSP 8287, IDSP 12288,
BOM 65279. -/
def isWs (c : Char) : Bool :=
  let n := c.toNat
  n = 9 || n = 10 || n = 11 || n = 12 || n = 13 || n = 32 || n = 160 ||
  n = 5760 || (8192 ≤ n && n ≤ 8202) || n = 8232 || n = 8233 ||
  n = 8239 || n = 8287 || n = 12288 || n = 65279

/-- JS line terminators (which the regex dot does not match):
LF 10, CR 13, LS 8232, PS 8233. -/
def isLineTerm (c : Char) : Bool :=
  let n := c.toNat
  n = 10 || n = 13 || n = 8232 || n = 8233

/-- Characters matched by the regex class excluding quote 34, comma 44
and whitespace. -/
def isPlainChar (c : Char) : Bool :=
  !(c.toNat = 34 || c.toNat = 44 || isWs c)

def isDigitChar (c : Char) : Bool :=
  48 ≤ c.toNat && c.toNat ≤ 57

/-- String.prototype.trim on a character list. -/
def trimChars (l : List Char) : List Char :=
  ((l.dropWhile isWs).reverse.dropWhile isWs).reverse

def consHead (c : Char) : List (List Char) → List (List Char)
  | [] => [[c]]
  | l :: ls => (c :: l) :: ls

/-- text.split on the regex of CR?LF: a lone CR is not a separator. -/
def splitLines : List Char → List (List Char)
  | [] => [[]]
  | [c] => if c = '\n' then [[], []] else [[c]]
  | c :: d :: rest =>
    if c = '\n' then [] :: splitLines (d :: rest)
    else if c = '\r' && d = '\n' then [] :: splitLines rest
    else consHead c (splitLines (d :: rest))

/-- line.split on a comma (the fallback branch of the tokenizer). -/
def splitCommaChars : List Char → List (List Char)
  | [] => [[]]
  | c :: rest =>
    if c = ',' then [] :: splitCommaChars rest
    else consHead c (splitCommaChars rest)

/-- replace of doubled quotes by one quote, left to right, as the second
replace inside clean. -/
def collapseQQ : List Char → List Char
  | [] => []
  | [c] => [c]
  | a :: b :: rest =>
    if a = '"' && b = '"' then '"' :: collapseQQ rest
    else a :: collapseQQ (b :: rest)

/-- replace of the anchored-quote regex inside clean: one leading quote if
present, then one trailing quote if present, are removed. -/
def stripQuotes (l : List Char) : List Char :=
  let l1 := match l with
    | [] => ([] : List Char)
    | c :: rest => if c = '"' then rest else c :: rest
  match l1.getLast? with
  | some c => if c = '"' then l1.dropLast else l1
  | none => l1

/-- The clean helper of handleCsvImport: strip one leading and one
trailing quote, collapse doubled quotes, trim. A missing token is the
empty string, as val or-else the empty string. -/
def cleanTok (s : String) : String :=
  String.mk (trimChars (collapseQQ (stripQuotes s.data)))

/-- The regex lookahead: optional whitespace then a comma, or optional
whitespace then end of input. -/
def lookaheadOk (rest : List Char) : Bool :=
  match rest.dropWhile isWs with
  | [] => true
  | c :: _ => c = ','

/-- Lazy scan of the quoted alternative: content consumed by the dot up
to the first closing quote whose lookahead succeeds; the dot rejects line
terminators. Returns the content and the input after the closing quote. -/
def scanQuoted : List Char → Option (List Char × List Char)
  | [] => none
  | c :: cs =>
    if c = '"' && lookaheadOk cs then some ([], cs)
    else if isLineTerm c then none
    else match scanQuoted cs with
      | some (content, t) => some (c :: content, t)
      | none => none

/-- One attempt of the regex at the current position: the quoted
alternative if the input starts with a quote, else the plain-run
alternative, each subject to the lookahead. -/
def matchAt (l : List Char) : Option (List Char × List Char) :=
  match l with
  | [] => none
  | c :: _ =>
    if c = '"' then
      match scanQuoted l.tail with
      | some (content, t) => some ('"' :: (content ++ ['"']), t)
      | none => none
    else if isPlainChar c then
      let tok := l.takeWhile isPlainChar
      let rest := l.dropWhile isPlainChar
      if lookaheadOk rest then some (tok, rest) else none
    else none

/-- Global regex matching: collect the leftmost match, continue after it;
on failure at a position, advance one character. Fuel equals the input
length, which suffices since every step consumes at least one character. -/
def jsMatchGo : Nat → List Char → List String
  | 0, _ => []
  | fuel+1, l =>
    match matchAt l with
    | some (tok, rest) => String.mk tok :: jsMatchGo fuel rest
    | none =>
      match l with
      | [] => []
      | _ :: cs => jsMatchGo fuel cs

/-- line.match with the global flag: the list of match strings, empty for
the JS null result. -/
def jsMatchAll (l : List Char) : List String := jsMatchGo l.length l

/-- The tokenizer line of handleCsvImport: the regex matches, or-else the
plain comma split (JS match returns null exactly when there is no match). -/
def tokensOf (line : List Char) : List String :=
  match jsMatchAll line with
  | [] => (splitCommaChars line).map String.mk
  | toks => toks

def digitVal (c : Char) : Nat := c.toNat - 48

def isHexDigit (c : Char) : Bool :=
  isDigitChar c || (97 ≤ c.toNat && c.toNat ≤ 102) || (65 ≤ c.toNat && c.toNat ≤ 70)

def hexVal (c : Char) : Nat :=
  if isDigitChar c then c.toNat - 48
  else if 97 ≤ c.toNat then c.toNat - 87
  else c.toNat - 55

def digitsVal (base : Nat) (f : Char → Nat) (l : List Char) : Nat :=
  l.foldl (fun a c => base * a + f c) 0

def parseDec (l : List Char) : Option Nat :=
  if (l.takeWhile isDigitChar).isEmpty then none
  else some (digitsVal 10 digitVal (l.takeWhile isDigitChar))

def parseHex (l : List Char) : Option Nat :=
  if (l.takeWhile isHexDigit).isEmpty then none
  else some (digitsVal 16 hexVal (l.takeWhile isHexDigit))

/-- parseInt digit scan after sign: a 0x or 0X prefix selects radix 16,
otherwise the longest decimal-digit prefix; no digits is NaN. -/
def parseUnsigned (l : List Char) : Option Nat :=
  match l with
  | '0' :: c :: rest => if c = 'x' || c = 'X' then parseHex rest else parseDec l
  | _ => parseDec l

/-- JS parseInt with no radix argument: strip whitespace, optional sign,
then the digit scan; none models NaN. -/
def jsParseInt (s : String) : Option Int :=
  match s.data.dropWhile isWs with
  | [] => none
  | c :: rest =>
    if c = '-' then (parseUnsigned rest).map (fun n => -(n : Int))
    else if c = '+' then (parseUnsigned rest).map (fun n => (n : Int))
    else (parseUnsigned (c :: rest)).map (fun n => (n : Int))

/-- parseInt or-else 1: NaN and 0 are falsy and become 1; any other
integer, including a negative one, is kept. -/
def parseIntOr1 (s : String) : Int :=
  match jsParseInt s with
  | none => 1
  | some v => if v = 0 then 1 else v

/-- JS toUpperCase, modelled as ASCII uppercasing; faithful on the
alphabet relevant to the group check. -/
def upperStr (s : String) : String := String.mk (s.data.map Char.toUpper)

/-- Group ingestion of handleCsvImport: clean, uppercase, keep when
exactly A, B or C, else A. -/
def normGroup (tok : String) : String :=
  let g := upperStr (cleanTok tok)
  if g = "A" || g = "B" || g = "C" then g else "A"

/-- The Student record of src/types.ts, minus the impure id and createdAt
fields; group is the string stored by the program. -/
structure Student where
  grade : Int
  schoolClass : Int
  number : Int
  group : String
  name : String
  phone : String
  remarks : String
deriving DecidableEq

/-- The per-row body of handleCsvImport after tokenizing: skip when the
cleaned fifth token is empty, else build the record with defaults. -/
def processParts (parts : List String) : Option Student :=
  if cleanTok (parts.getD 4 "") = "" then none
  else some {
    grade := parseIntOr1 (cleanTok (parts.getD 0 "")),
    schoolClass := parseIntOr1 (cleanTok (parts.getD 1 "")),
    number := parseIntOr1 (cleanTok (parts.getD 2 "")),
    group := normGroup (parts.getD 3 ""),
    name := (let n := cleanTok (parts.getD 4 ""); if n = "" then "이름없음" else n),
    phone := cleanTok (parts.getD 5 ""),
    remarks := cleanTok (parts.getD 6 "") }

def processLine (line : List Char) : Option Student :=
  processParts (tokensOf line)

/-- handleCsvImport on a whole text: split lines, drop the header line,
keep non-blank lines, process each row; the produced records are the ones
appended to the roster. -/
def importedStudents (text : List Char) : List Student :=
  let lines := splitLines text
  let dataLines := (lines.drop 1).filter (fun l => !(trimChars l).isEmpty)
  dataLines.filterMap processLine

/-- Decimal digit emission, most significant first; fuel n+1 suffices. -/
def decDigitsGo : Nat → Nat → List Char → List Char
  | 0, _, acc => acc
  | fuel+1, n, acc =>
    if n < 10 then Nat.digitChar n :: acc
    else decDigitsGo fuel (n / 10) (Nat.digitChar (n % 10) :: acc)

/-- Decimal representation of a natural number, as JS renders an integral
number value. -/
def decRepr (n : Nat) : List Char := decDigitsGo (n + 1) n []

/-- JS rendering of an integral number value. -/
def numStr (i : Int) : List Char :=
  if i < 0 then '-' :: decRepr i.natAbs else decRepr i.toNat

/-- replace of every quote by a doubled quote (the remarks escaping in
exportToCsv). -/
def escQuotes : List Char → List Char
  | [] => []
  | c :: rest =>
    if c = '"' then '"' :: '"' :: escQuotes rest
    else c :: escQuotes rest

/-- The remarks column of exportToCsv: always wrapper-quoted, internal
quotes doubled. -/
def quoteRemarks (r : String) : List Char :=
  '"' :: (escQuotes r.data ++ ['"'])

/-- Array.prototype.join on a separator character. -/
def joinWith (sep : Char) : List (List Char) → List Char
  | [] => []
  | [x] => x
  | x :: xs => x ++ sep :: joinWith sep xs

/-- One data row of exportToCsv: the seven columns joined by commas, all
rendered plainly except remarks. -/
def rowOf (s : Student) : List Char :=
  joinWith ',' [numStr s.grade, numStr s.schoolClass, numStr s.number,
    s.group.data, s.name.data, s.phone.data, quoteRemarks s.remarks]

/-- The fixed Korean header row of exportToCsv. -/
def headerRow : List Char := "학년,반,번호,방과후그룹,이름,전화번호,비고".data

/-- Code-point lexicographic strict comparison of character lists. -/
def lexLt : List Char → List Char → Bool
  | [], [] => false
  | [], _ :: _ => true
  | _ :: _, [] => false
  | a :: as, b :: bs =>
    if a < b then true
    else if b < a then false
    else lexLt as bs

/-- localeCompare modelled as code-point comparison (exact on A, B, C). -/
def localeCmp (a b : String) : Int :=
  if lexLt a.data b.data then -1 else if lexLt b.data a.data then 1 else 0

/-- The sort comparator of exportToCsv: group, then grade, then
schoolClass, then number. -/
def cmpStudent (a b : Student) : Int :=
  if a.group ≠ b.group then localeCmp a.group b.group
  else if a.grade ≠ b.grade then a.grade - b.grade
  else if a.schoolClass ≠ b.schoolClass then a.schoolClass - b.schoolClass
  else a.number - b.number

/-- The non-strict order induced by the comparator. -/
def sortLe (a b : Student) : Prop := cmpStudent a b ≤ 0

instance : DecidableRel sortLe :=
  fun a b => inferInstanceAs (Decidable (cmpStudent a b ≤ 0))

/-- Array.prototype.sort on the comparator, modelled by the stable
insertion sort over the induced order. -/
def sortStudents (l : List Student) : List Student :=
  List.insertionSort sortLe l

/-- The csvContent string of exportToCsv: header then sorted rows, joined
by LF. -/
def csvContent (l : List Student) : List Char :=
  joinWith '\n' (headerRow :: (sortStudents l).map rowOf)

/-- exportToCsv on an accepted (non-empty) record set: the blob content,
a BOM then the content; none models the refused empty set. -/
def exportedText (l : List Student) : Option (List Char) :=
  if l.isEmpty then none else some ('\ufeff' :: csvContent l)

/-- The activeTab scope: a single group or ALL. -/
inductive ViewMode where
  | all : ViewMode
  | only (g : String) : ViewMode
deriving DecidableEq

/-- The filteredStudents computation of the App component. -/
def filteredStudents (students : List Student) (tab : ViewMode) : List Student :=
  match tab with
  | .all => students
  | .only g => students.filter (fun s => s.group = g)

/-- The stored roster sequence after exportToCsv runs: the in-place
Array.prototype.sort reorders the state array itself when the filtered
list is the state array (scope ALL); a group scope sorts the fresh array
produced by filter, leaving the store untouched; an empty filtered list
is refused before sorting. -/
def exportPost (students : List Student) (tab : ViewMode) : List Student :=
  if (filteredStudents students tab).isEmpty then students
  else match tab with
    | .all => sortStudents students
    | .only _ => students

/-- A raw field token matched by the plain alternative: non-empty with no
quote, comma or whitespace characters. -/
def plainTok (l : List Char) : Bool := !l.isEmpty && l.all isPlainChar

/-- No JS line terminator occurs in the list. -/
def noTermChars (l : List Char) : Bool := l.all (fun c => !isLineTerm c)

/-- No line-splitting character (LF or CR) occurs in the list. -/
def noNL (l : List Char) : Bool := l.all (fun c => !(c = '\n' || c = '\r'))

/-- A quote at this position inside quoted content would let the lazy
quoted match close early: optional whitespace then a comma follows. -/
def qcBad (rest : List Char) : Bool :=
  match rest.dropWhile isWs with
  | ',' :: _ => true
  | _ => false

/-- Content whose quoted encoding is tokenized back in one piece: no
internal quote is followed by optional whitespace and a comma. -/
def safeContent : List Char → Bool
  | [] => true
  | c :: rest => (if c = '"' then !qcBad rest else true) && safeContent rest

/-- Descriptor of one comma-separated field of a line: a plain run, or a
fully quoted segment whose stated content gets its quotes doubled. -/
inductive FieldSpec where
  | plainF (s : String) : FieldSpec
  | quotedF (c : String) : FieldSpec

def renderSpec : FieldSpec → List Char
  | .plainF s => s.data
  | .quotedF c => '"' :: (escQuotes c.data ++ ['"'])

/-- The raw match string the regex produces for a field. -/
def specToken : FieldSpec → String
  | .plainF s => s
  | .quotedF c => String.mk ('"' :: (escQuotes c.data ++ ['"']))

def goodSpec : FieldSpec → Prop
  | .plainF s => plainTok s.data = true
  | .quotedF c => safeContent c.data = true ∧ noTermChars c.data = true

/-- Export-regular record: positive numeric fields, a legal group, plain
non-empty name and phone, and remarks that are trimmed, free of line
terminators, and without an early-closing quote position. On this class
the CSV round-trip is exact. -/
def goodStudent (s : Student) : Prop :=
  1 ≤ s.grade ∧ 1 ≤ s.schoolClass ∧ 1 ≤ s.number ∧
  (s.group = "A" ∨ s.group = "B" ∨ s.group = "C") ∧
  plainTok s.name.data = true ∧ plainTok s.phone.data = true ∧
  safeContent s.remarks.data = true ∧ noTermChars s.remarks.data = true ∧
  trimChars s.remarks.data = s.remarks.data

instance : DecidablePred goodStudent := fun s => by
  unfold goodStudent
  infer_instance

/-- The four-part lexicographic sort key of the export ordering. -/
def keyOf (s : Student) : String ×ₗ (Int ×ₗ (Int ×ₗ Int)) :=
  toLex (s.group, toLex (s.grade, toLex (s.schoolClass, s.number)))

/-- The ordering chain as the spec states it: group lexicographically
ascending, then grade, then schoolClass, then number, allowing equality
on all four keys. -/
def specLe (a b : Student) : Prop :=
  a.group < b.group ∨ (a.group = b.group ∧
    (a.grade < b.grade ∨ (a.grade = b.grade ∧
      (a.schoolClass < b.schoolClass ∨ (a.schoolClass = b.schoolClass ∧
        a.number ≤ b.number)))))

/-- Proof-side decimal rendering by repeated division; equal to decRepr. -/
def decChars (n : Nat) : List Char :=
  if h : n < 10 then [Nat.digitChar n]
  else decChars (n / 10) ++ [Nat.digitChar (n % 10)]
decreasing_by exact Nat.div_lt_self (by omega) (by omega)

/-! Fuel-elimination lemmas for the tokenizer: every successful match
consumes at least one character, so fuel equal to the input length is
enough, and jsMatchAll satisfies clean step equations. -/

theorem scanQuoted_length : ∀ {l content t : List Char},
    scanQuoted l = some (content, t) → t.length < l.length := by
  intro l
  induction l with
  | nil => intro content t h; simp [scanQuoted] at h
  | cons c cs ih =>
    intro content t h
    simp only [scanQuoted] at h
    split at h
    · rw [Option.some.injEq, Prod.mk.injEq] at h
      obtain ⟨h1, h2⟩ := h
      subst h2
      simp
    · split at h
      · cases h
      · cases hrec : scanQuoted cs with
        | none => rw [hrec] at h; cases h
        | some p =>
          obtain ⟨content2, t2⟩ := p
          rw [hrec] at h
          cases h
          have := ih hrec
          simp
          omega

theorem matchAt_length {l tok rest : List Char}
    (h : matchAt l = some (tok, rest)) : rest.length < l.length := by
  cases l with
  | nil => simp [matchAt] at h
  | cons c cs =>
    simp only [matchAt] at h
    split at h
    · cases hrec : scanQuoted (c :: cs).tail with
      | none => rw [hrec] at h; cases h
      | some p =>
        obtain ⟨content, t⟩ := p
        rw [hrec] at h
        cases h
        have := scanQuoted_length hrec
        simp at this ⊢
        omega
    · split at h
      · split at h
        · cases h
          have : ((c :: cs).dropWhile isPlainChar).length ≤ cs.length := by
            rw [List.dropWhile_cons]
            split
            · exact (List.dropWhile_sublist _).length_le
            · simp_all
          simp
          omega
        · cases h
      · cases h

theorem jsMatchGo_nil : ∀ fuel, jsMatchGo fuel [] = [] := by
  intro fuel
  cases fuel with
  | zero => rfl
  | succ f => simp [jsMatchGo, matchAt]

theorem jsMatchGo_fuel : ∀ fuel fuel2 (l : List Char), l.length ≤ fuel →
    l.length ≤ fuel2 → jsMatchGo fuel l = jsMatchGo fuel2 l := by
  intro fuel
  induction fuel with
  | zero =>
    intro fuel2 l h1 _
    have : l = [] := List.eq_nil_of_length_eq_zero (Nat.le_zero.mp h1)
    subst this
    rw [jsMatchGo_nil, jsMatchGo_nil]
  | succ f ih =>
    intro fuel2 l h1 h2
    cases fuel2 with
    | zero =>
      have : l = [] := List.eq_nil_of_length_eq_zero (Nat.le_zero.mp h2)
      subst this
      rw [jsMatchGo_nil, jsMatchGo_nil]
    | succ f2 =>
      simp only [jsMatchGo]
      cases hm : matchAt l with
      | some p =>
        obtain ⟨tok, rest⟩ := p
        have hlen := matchAt_length hm
        have e1 : rest.length ≤ f := by omega
        have e2 : rest.length ≤ f2 := by omega
        show String.mk tok :: jsMatchGo f rest = String.mk tok :: jsMatchGo f2 rest
        rw [ih f2 rest e1 e2]
      | none =>
        cases l with
        | nil => rfl
        | cons c cs =>
          have e1 : cs.length ≤ f := by simp at h1; omega
          have e2 : cs.length ≤ f2 := by simp at h2; omega
          exact ih f2 cs e1 e2

theorem jsMatchAll_nil : jsMatchAll [] = [] := rfl

theorem jsMatchAll_match {l tok rest : List Char}
    (h : matchAt l = some (tok, rest)) :
    jsMatchAll l = String.mk tok :: jsMatchAll rest := by
  cases l with
  | nil => simp [matchAt] at h
  | cons c cs =>
    show jsMatchGo (c :: cs).length (c :: cs) = _
    have hlen := matchAt_length h
    simp only [List.length_cons, jsMatchGo, h]
    rw [jsMatchGo_fuel cs.length rest.length rest (by simp at hlen; omega) le_rfl]
    rfl

theorem jsMatchAll_skip {c : Char} {cs : List Char}
    (h : matchAt (c :: cs) = none) : jsMatchAll (c :: cs) = jsMatchAll cs := by
  show jsMatchGo (c :: cs).length (c :: cs) = _
  simp only [List.length_cons, jsMatchGo, h]
  rfl

/-! Step lemmas: how one regex attempt behaves on a plain token, on a
quoted token with safe content, and on a comma. -/

theorem isPlainChar_spec {c : Char} (h : isPlainChar c = true) :
    c ≠ '"' ∧ c ≠ ',' ∧ isWs c = false := by
  refine ⟨?_, ?_, ?_⟩
  · intro e; rw [e] at h; exact absurd h (by decide)
  · intro e; rw [e] at h; exact absurd h (by decide)
  · cases hw : isWs c with
    | false => rfl
    | true => simp [isPlainChar, hw] at h

theorem dropWhile_head_stop {p : Char → Bool} {l : List Char}
    (h : ∀ c ∈ l.head?, p c = false) : l.dropWhile p = l := by
  cases l with
  | nil => rfl
  | cons c cs => simp [List.dropWhile_cons, h c (by simp)]

theorem takeWhile_head_stop {p : Char → Bool} {l : List Char}
    (h : ∀ c ∈ l.head?, p c = false) : l.takeWhile p = [] := by
  cases l with
  | nil => rfl
  | cons c cs => simp [List.takeWhile_cons, h c (by simp)]

theorem takeWhile_all_append {p : Char → Bool} : ∀ {t : List Char} (rest : List Char),
    (∀ c ∈ t, p c = true) → (t ++ rest).takeWhile p = t ++ rest.takeWhile p := by
  intro t
  induction t with
  | nil => simp
  | cons c t2 ih =>
    intro rest h
    simp only [List.cons_append, List.takeWhile_cons, h c (by simp), if_true]
    rw [ih rest (fun d hd => h d (by simp [hd]))]

theorem dropWhile_all_append {p : Char → Bool} : ∀ {t : List Char} (rest : List Char),
    (∀ c ∈ t, p c = true) → (t ++ rest).dropWhile p = rest.dropWhile p := by
  intro t
  induction t with
  | nil => simp
  | cons c t2 ih =>
    intro rest h
    simp only [List.cons_append, List.dropWhile_cons, h c (by simp), if_true]
    exact ih rest (fun d hd => h d (by simp [hd]))

theorem lookaheadOk_comma (rest : List Char) : lookaheadOk (',' :: rest) = true := by
  simp [lookaheadOk, List.dropWhile_cons, show isWs ',' = false from by decide]

theorem lookaheadOk_cons_ws {x : Char} (hx : isWs x = true) (l : List Char) :
    lookaheadOk (x :: l) = lookaheadOk l := by
  simp [lookaheadOk, List.dropWhile_cons, hx]

theorem lookaheadOk_cons_not_ws {x : Char} (hx : isWs x = false) (l : List Char) :
    lookaheadOk (x :: l) = decide (x = ',') := by
  simp [lookaheadOk, List.dropWhile_cons, hx]

theorem lookaheadOk_quote (l : List Char) : lookaheadOk ('"' :: l) = false := by
  rw [lookaheadOk_cons_not_ws (by decide)]
  decide

theorem qcBad_cons_ws {x : Char} (hx : isWs x = true) (l : List Char) :
    qcBad (x :: l) = qcBad l := by
  simp [qcBad, List.dropWhile_cons, hx]

theorem qcBad_cons_not_ws {x : Char} (hx : isWs x = false) (l : List Char) :
    qcBad (x :: l) = decide (x = ',') := by
  simp only [qcBad, List.dropWhile_cons, hx, Bool.false_eq_true, if_false]
  by_cases e : x = ','
  · subst e; simp
  · rw [decide_eq_false e]
    split
    · rename_i heq
      injection heq with h1 _
      exact absurd h1 e
    · rfl

theorem matchAt_comma (cs : List Char) : matchAt (',' :: cs) = none := by
  simp [matchAt, show (',' : Char) ≠ '"' from by decide,
    show isPlainChar ',' = false from by decide]

theorem matchAt_plain {t rest : List Char} (hp : plainTok t = true)
    (hstop : ∀ c ∈ rest.head?, isPlainChar c = false)
    (hl : lookaheadOk rest = true) :
    matchAt (t ++ rest) = some (t, rest) := by
  rw [plainTok, Bool.and_eq_true] at hp
  obtain ⟨hne, hall0⟩ := hp
  have hall : ∀ c ∈ t, isPlainChar c = true := List.all_eq_true.mp hall0
  cases t with
  | nil => simp at hne
  | cons c t2 =>
    have hc : isPlainChar c = true := hall c (by simp)
    obtain ⟨hq, _, _⟩ := isPlainChar_spec hc
    have htake : ((c :: t2) ++ rest).takeWhile isPlainChar = c :: t2 := by
      rw [takeWhile_all_append rest hall, takeWhile_head_stop hstop, List.append_nil]
    have hdrop : ((c :: t2) ++ rest).dropWhile isPlainChar = rest := by
      rw [dropWhile_all_append rest hall, dropWhile_head_stop hstop]
    simp only [List.cons_append] at htake hdrop
    simp [matchAt, hq, hc, htake, hdrop, hl]

theorem lookahead_esc_false : ∀ {c2 : List Char}, qcBad c2 = false →
    ∀ rest, lookaheadOk (escQuotes c2 ++ '"' :: rest) = false := by
  intro c2
  induction c2 with
  | nil => intro _ rest; simpa [escQuotes] using lookaheadOk_quote rest
  | cons x c3 ih =>
    intro hq rest
    by_cases hx : x = '"'
    · subst hx
      simp only [escQuotes, if_pos rfl, List.cons_append]
      exact lookaheadOk_quote _
    · simp only [escQuotes, if_neg hx, List.cons_append]
      by_cases hw : isWs x = true
      · rw [lookaheadOk_cons_ws hw]
        rw [qcBad_cons_ws hw] at hq
        exact ih hq rest
      · rw [lookaheadOk_cons_not_ws (by simpa using hw)]
        rw [qcBad_cons_not_ws (by simpa using hw)] at hq
        exact hq

theorem scanQuoted_esc : ∀ {c : List Char} {rest : List Char},
    safeContent c = true → noTermChars c = true → lookaheadOk rest = true →
    scanQuoted (escQuotes c ++ '"' :: rest) = some (escQuotes c, rest) := by
  intro c
  induction c with
  | nil =>
    intro rest _ _ hl
    simp [escQuotes, scanQuoted, hl]
  | cons a c2 ih =>
    intro rest hs hn hl
    simp only [safeContent, Bool.and_eq_true] at hs
    obtain ⟨hsa, hs2⟩ := hs
    simp only [noTermChars, List.all_cons, Bool.and_eq_true] at hn
    obtain ⟨hna, hn2⟩ := hn
    have hn2' : noTermChars c2 = true := by simpa [noTermChars] using hn2
    by_cases ha : a = '"'
    · subst ha
      rw [if_pos rfl] at hsa
      have hbad : qcBad c2 = false := by simpa using hsa
      have h1 : lookaheadOk ('"' :: (escQuotes c2 ++ '"' :: rest)) = false :=
        lookaheadOk_quote _
      have h2 : lookaheadOk (escQuotes c2 ++ '"' :: rest) = false :=
        lookahead_esc_false hbad rest
      simp only [escQuotes, if_pos rfl, List.cons_append]
      simp only [scanQuoted, List.append_eq, List.cons_append, h1, h2, Bool.and_false,
        Bool.false_eq_true, if_false, if_true,
        show isLineTerm '"' = false from by decide]
      rw [ih hs2 hn2' hl]
    · have hterm : isLineTerm a = false := by simpa using hna
      simp only [escQuotes, if_neg ha, List.cons_append]
      simp only [scanQuoted, List.append_eq, List.cons_append, Bool.false_eq_true,
        if_false, hterm, decide_eq_false ha, Bool.false_and]
      rw [ih hs2 hn2' hl]

theorem matchAt_quoted {c rest : List Char} (hs : safeContent c = true)
    (hn : noTermChars c = true) (hl : lookaheadOk rest = true) :
    matchAt ('"' :: (escQuotes c ++ '"' :: rest)) =
      some ('"' :: (escQuotes c ++ ['"']), rest) := by
  simp only [matchAt, List.tail_cons]
  rw [scanQuoted_esc hs hn hl]
  simp

/-! Tokenization of one whole line made of well-formed fields. -/

theorem mk_data_eq (s : String) : String.mk s.data = s := rfl

theorem jsMatchAll_comma (cs : List Char) : jsMatchAll (',' :: cs) = jsMatchAll cs :=
  jsMatchAll_skip (matchAt_comma cs)

theorem jsMatchAll_join : ∀ (fs : List FieldSpec), fs ≠ [] →
    (∀ f ∈ fs, goodSpec f) →
    jsMatchAll (joinWith ',' (fs.map renderSpec)) = fs.map specToken := by
  intro fs
  induction fs with
  | nil => intro h _; exact absurd rfl h
  | cons f fs2 ih =>
    intro _ hgood
    have hf : goodSpec f := hgood f (by simp)
    cases fs2 with
    | nil =>
      cases f with
      | plainF s =>
        have hm : matchAt (s.data ++ []) = some (s.data, []) :=
          matchAt_plain hf (by simp) rfl
        rw [List.append_nil] at hm
        show jsMatchAll s.data = [s]
        rw [jsMatchAll_match hm, jsMatchAll_nil]
      | quotedF c =>
        obtain ⟨hs, hn⟩ := hf
        have hm := @matchAt_quoted c.data [] hs hn rfl
        show jsMatchAll ('"' :: (escQuotes c.data ++ '"' :: [])) =
          [String.mk ('"' :: (escQuotes c.data ++ ['"']))]
        rw [jsMatchAll_match hm, jsMatchAll_nil]
    | cons f2 rest2 =>
      have hne2 : f2 :: rest2 ≠ [] := by simp
      have hgood2 : ∀ g ∈ f2 :: rest2, goodSpec g := fun g hg => hgood g (by simp [hg])
      have hJ := ih hne2 hgood2
      cases f with
      | plainF s =>
        have hm : matchAt (s.data ++ ',' ::
            joinWith ',' (List.map renderSpec (f2 :: rest2))) =
            some (s.data, ',' :: joinWith ',' (List.map renderSpec (f2 :: rest2))) :=
          matchAt_plain hf (by intro d hd; simp at hd; subst hd; decide)
            (lookaheadOk_comma _)
        show jsMatchAll (s.data ++ ',' :: joinWith ','
            (List.map renderSpec (f2 :: rest2))) =
          s :: List.map specToken (f2 :: rest2)
        rw [jsMatchAll_match hm, jsMatchAll_comma, hJ]
      | quotedF c =>
        obtain ⟨hs, hn⟩ := hf
        have hm := @matchAt_quoted c.data (',' ::
          joinWith ',' (List.map renderSpec (f2 :: rest2))) hs hn (lookaheadOk_comma _)
        show jsMatchAll (('"' :: (escQuotes c.data ++ ['"'])) ++ ',' ::
            joinWith ',' (List.map renderSpec (f2 :: rest2))) =
          String.mk ('"' :: (escQuotes c.data ++ ['"'])) ::
            List.map specToken (f2 :: rest2)
        simp only [List.cons_append, List.append_assoc, List.singleton_append,
          List.nil_append]
        rw [jsMatchAll_match hm, jsMatchAll_comma, hJ]

theorem tokensOf_join (fs : List FieldSpec) (h1 : fs ≠ [])
    (h2 : ∀ f ∈ fs, goodSpec f) :
    tokensOf (joinWith ',' (fs.map renderSpec)) = fs.map specToken := by
  unfold tokensOf
  rw [jsMatchAll_join fs h1 h2]
  cases fs with
  | nil => exact absurd rfl h1
  | cons f fs2 => rfl

/-! Behavior of the clean helper on plain tokens and on quoted tokens. -/

theorem dropWhile_all_false {p : Char → Bool} {l : List Char}
    (h : ∀ c ∈ l, p c = false) : l.dropWhile p = l := by
  induction l with
  | nil => rfl
  | cons c t ih =>
    simp only [List.dropWhile_cons, h c (by simp), Bool.false_eq_true, if_false]

theorem trimChars_eq_self {l : List Char} (h : ∀ c ∈ l, isWs c = false) :
    trimChars l = l := by
  unfold trimChars
  rw [dropWhile_all_false h,
    dropWhile_all_false (fun c hc => h c (List.mem_reverse.mp hc)),
    List.reverse_reverse]

theorem stripQuotes_no_quote {l : List Char} (h : ∀ c ∈ l, c ≠ '"') :
    stripQuotes l = l := by
  unfold stripQuotes
  cases l with
  | nil => rfl
  | cons c t2 =>
    have hc : c ≠ '"' := h c (by simp)
    simp only [if_neg hc]
    cases hlast : (c :: t2).getLast? with
    | none => simp at hlast
    | some d =>
      have hd : d ∈ c :: t2 := List.mem_of_mem_getLast? hlast
      simp [h d hd]

theorem collapseQQ_cons_ne {a : Char} (ha : a ≠ '"') (l : List Char) :
    collapseQQ (a :: l) = a :: collapseQQ l := by
  cases l with
  | nil => rfl
  | cons b t => simp [collapseQQ, ha]

theorem collapseQQ_no_quote {l : List Char} (h : ∀ c ∈ l, c ≠ '"') :
    collapseQQ l = l := by
  induction l with
  | nil => rfl
  | cons a t ih =>
    rw [collapseQQ_cons_ne (h a (by simp))]
    rw [ih (fun c hc => h c (by simp [hc]))]

theorem cleanTok_plain {t : List Char} (h : ∀ c ∈ t, isPlainChar c = true) :
    cleanTok (String.mk t) = String.mk t := by
  unfold cleanTok
  have hq : ∀ c ∈ t, c ≠ '"' := fun c hc => (isPlainChar_spec (h c hc)).1
  have hw : ∀ c ∈ t, isWs c = false := fun c hc => (isPlainChar_spec (h c hc)).2.2
  rw [show (String.mk t).data = t from rfl, stripQuotes_no_quote hq,
    collapseQQ_no_quote hq, trimChars_eq_self hw]

theorem collapseQQ_esc (l : List Char) : collapseQQ (escQuotes l) = l := by
  induction l with
  | nil => rfl
  | cons a t ih =>
    simp only [escQuotes]
    by_cases ha : a = '"'
    · subst ha
      rw [if_pos rfl]
      rw [show collapseQQ ('"' :: '"' :: escQuotes t) = '"' :: collapseQQ (escQuotes t)
        from by simp [collapseQQ]]
      rw [ih]
    · rw [if_neg ha, collapseQQ_cons_ne ha, ih]

theorem stripQuotes_wrapped (r : List Char) :
    stripQuotes ('"' :: (escQuotes r ++ ['"'])) = escQuotes r := by
  unfold stripQuotes
  simp only [if_pos rfl, if_true, List.getLast?_concat, List.dropLast_concat]

theorem cleanTok_quoted {r : List Char} (htrim : trimChars r = r) :
    cleanTok (String.mk ('"' :: (escQuotes r ++ ['"']))) = String.mk r := by
  unfold cleanTok
  rw [show (String.mk ('"' :: (escQuotes r ++ ['"']))).data =
    '"' :: (escQuotes r ++ ['"']) from rfl]
  rw [stripQuotes_wrapped, collapseQQ_esc, htrim]

/-! Decimal rendering and the parseInt round-trip on positive integers. -/

theorem digitChar_isDigit {d : Nat} (h : d < 10) :
    isDigitChar (Nat.digitChar d) = true := by
  interval_cases d <;> decide

theorem digitVal_digitChar {d : Nat} (h : d < 10) :
    digitVal (Nat.digitChar d) = d := by
  interval_cases d <;> decide

theorem decChars_digits : ∀ n, ∀ c ∈ decChars n, isDigitChar c = true := by
  intro n
  induction n using Nat.strong_induction_on with
  | _ n ih =>
    intro c hc
    rw [decChars] at hc
    by_cases h10 : n < 10
    · rw [dif_pos h10] at hc
      simp at hc
      subst hc
      exact digitChar_isDigit h10
    · rw [dif_neg h10] at hc
      rcases List.mem_append.mp hc with h1 | h2
      · exact ih (n / 10) (Nat.div_lt_self (by omega) (by omega)) c h1
      · simp at h2
        subst h2
        exact digitChar_isDigit (Nat.mod_lt n (by omega))

theorem decChars_ne_nil (n : Nat) : decChars n ≠ [] := by
  rw [decChars]
  by_cases h10 : n < 10
  · rw [dif_pos h10]; simp
  · rw [dif_neg h10]; simp

theorem decDigitsGo_eq : ∀ (fuel n : Nat) (acc : List Char), n < fuel →
    decDigitsGo fuel n acc = decChars n ++ acc := by
  intro fuel
  induction fuel with
  | zero => intro n acc h; omega
  | succ f ih =>
    intro n acc h
    by_cases h10 : n < 10
    · rw [decDigitsGo, if_pos h10, decChars, dif_pos h10]
      rfl
    · have hdiv : n / 10 < f := by
        have h2 := Nat.div_lt_self (show 0 < n by omega) (show 1 < 10 by omega)
        omega
      rw [decDigitsGo, if_neg h10, ih (n / 10) _ hdiv]
      conv_rhs => rw [decChars]
      rw [dif_neg h10]
      simp

theorem decRepr_eq (n : Nat) : decRepr n = decChars n := by
  rw [decRepr, decDigitsGo_eq (n + 1) n [] (by omega), List.append_nil]

theorem digitsVal_concat (b : Nat) (f : Char → Nat) (xs : List Char) (c : Char) :
    digitsVal b f (xs ++ [c]) = b * digitsVal b f xs + f c := by
  unfold digitsVal
  rw [List.foldl_append]
  rfl

theorem decChars_val : ∀ n, digitsVal 10 digitVal (decChars n) = n := by
  intro n
  induction n using Nat.strong_induction_on with
  | _ n ih =>
    rw [decChars]
    by_cases h10 : n < 10
    · rw [dif_pos h10]
      show 10 * 0 + digitVal (Nat.digitChar n) = n
      rw [digitVal_digitChar h10]
      omega
    · rw [dif_neg h10, digitsVal_concat,
        ih (n / 10) (Nat.div_lt_self (by omega) (by omega)),
        digitVal_digitChar (Nat.mod_lt n (by omega))]
      omega

theorem isDigit_not_ws {c : Char} (h : isDigitChar c = true) : isWs c = false := by
  rw [isDigitChar, Bool.and_eq_true, decide_eq_true_eq, decide_eq_true_eq] at h
  cases hw : isWs c with
  | false => rfl
  | true =>
    exfalso
    rw [isWs] at hw
    simp only [Bool.or_eq_true, Bool.and_eq_true, decide_eq_true_eq] at hw
    omega

theorem isDigit_plain {c : Char} (h : isDigitChar c = true) :
    isPlainChar c = true := by
  have hw := isDigit_not_ws h
  rw [isDigitChar, Bool.and_eq_true, decide_eq_true_eq, decide_eq_true_eq] at h
  cases hp : isPlainChar c with
  | true => rfl
  | false =>
    exfalso
    rw [isPlainChar, hw] at hp
    simp at hp
    omega

theorem takeWhile_all_eq {p : Char → Bool} {l : List Char}
    (h : ∀ c ∈ l, p c = true) : l.takeWhile p = l := by
  induction l with
  | nil => rfl
  | cons c t ih =>
    rw [List.takeWhile_cons, if_pos (h c (by simp)),
      ih (fun d hd => h d (by simp [hd]))]

theorem parseDec_decChars (n : Nat) : parseDec (decChars n) = some n := by
  unfold parseDec
  rw [takeWhile_all_eq (decChars_digits n)]
  have hne : (decChars n).isEmpty = false := by
    cases hd : decChars n with
    | nil => exact absurd hd (decChars_ne_nil n)
    | cons c t => rfl
  rw [hne]
  simp [decChars_val n]

theorem parseUnsigned_digits : ∀ {l : List Char},
    (∀ c ∈ l, isDigitChar c = true) → parseUnsigned l = parseDec l := by
  intro l h
  match l with
  | [] => rfl
  | [x] =>
    rw [parseUnsigned.eq_def]
    split
    · rename_i heq
      injection heq with h1 h2
      exact absurd h2 (by simp)
    · rfl
  | x :: y :: t2 =>
    by_cases hx : x = '0'
    · subst hx
      have hy := h y (by simp)
      have h1 : y ≠ 'x' := by intro e; rw [e] at hy; exact absurd hy (by decide)
      have h2 : y ≠ 'X' := by intro e; rw [e] at hy; exact absurd hy (by decide)
      show (if y = 'x' || y = 'X' then parseHex t2 else parseDec ('0' :: y :: t2)) = _
      simp [h1, h2]
    · rw [parseUnsigned.eq_def]
      split
      · rename_i heq
        injection heq with he _
        exact absurd he hx
      · rfl

theorem jsParseInt_decChars {n : Nat} :
    jsParseInt (String.mk (decChars n)) = some ((n : Nat) : Int) := by
  unfold jsParseInt
  rw [show (String.mk (decChars n)).data = decChars n from rfl]
  rw [dropWhile_all_false (fun c hc => isDigit_not_ws (decChars_digits n c hc))]
  cases hd : decChars n with
  | nil => exact absurd hd (decChars_ne_nil n)
  | cons c t =>
    have hc : isDigitChar c = true := decChars_digits n c (by rw [hd]; simp)
    have h1 : c ≠ '-' := by intro e; rw [e] at hc; exact absurd hc (by decide)
    have h2 : c ≠ '+' := by intro e; rw [e] at hc; exact absurd hc (by decide)
    show (if c = '-' then _ else if c = '+' then _ else
      (parseUnsigned (c :: t)).map (fun n => (n : Int))) = _
    rw [if_neg h1, if_neg h2]
    have hall : ∀ d ∈ c :: t, isDigitChar d = true := by
      rw [← hd]; exact decChars_digits n
    rw [parseUnsigned_digits hall, ← hd, parseDec_decChars n]
    rfl

theorem parseIntOr1_decChars {n : Nat} (hn : 1 ≤ n) :
    parseIntOr1 (String.mk (decChars n)) = (n : Int) := by
  unfold parseIntOr1
  rw [jsParseInt_decChars]
  simp only []
  rw [if_neg (by omega : ¬ ((n : Int) = 0))]

theorem numStr_pos_eq {g : Int} (hg : 1 ≤ g) : numStr g = decChars g.toNat := by
  rw [numStr, if_neg (by omega : ¬ g < 0), decRepr_eq]

theorem parseIntOr1_numStr {g : Int} (hg : 1 ≤ g) :
    parseIntOr1 (String.mk (numStr g)) = g := by
  rw [numStr_pos_eq hg, parseIntOr1_decChars (by omega)]
  omega

theorem numStr_plain {g : Int} (hg : 1 ≤ g) : plainTok (numStr g) = true := by
  rw [numStr_pos_eq hg, plainTok, Bool.and_eq_true]
  constructor
  · cases hd : decChars g.toNat with
    | nil => exact absurd hd (decChars_ne_nil _)
    | cons c t => rfl
  · exact List.all_eq_true.mpr
      (fun c hc => isDigit_plain (decChars_digits _ c hc))

/-! One exported row of an export-regular record tokenizes into its seven
raw tokens and re-imports to the same record. -/

theorem rowOf_as_specs (s : Student) :
    rowOf s = joinWith ',' (List.map renderSpec
      [FieldSpec.plainF (String.mk (numStr s.grade)),
       FieldSpec.plainF (String.mk (numStr s.schoolClass)),
       FieldSpec.plainF (String.mk (numStr s.number)),
       FieldSpec.plainF s.group,
       FieldSpec.plainF s.name,
       FieldSpec.plainF s.phone,
       FieldSpec.quotedF s.remarks]) := rfl

theorem group_plain {s : Student} (hg : s.group = "A" ∨ s.group = "B" ∨ s.group = "C") :
    plainTok s.group.data = true := by
  rcases hg with h | h | h <;> rw [h] <;> decide

theorem tokensOf_rowOf {s : Student} (hs : goodStudent s) :
    tokensOf (rowOf s) =
      [String.mk (numStr s.grade), String.mk (numStr s.schoolClass),
       String.mk (numStr s.number), s.group, s.name, s.phone,
       String.mk (quoteRemarks s.remarks)] := by
  obtain ⟨h1, h2, h3, h4, h5, h6, h7, h8, _⟩ := hs
  rw [rowOf_as_specs]
  rw [tokensOf_join _ (by simp) ?_]
  · rfl
  · intro f hf
    simp only [List.mem_cons, List.not_mem_nil, or_false] at hf
    rcases hf with h | h | h | h | h | h | h <;> subst h
    · exact numStr_plain h1
    · exact numStr_plain h2
    · exact numStr_plain h3
    · exact group_plain h4
    · exact h5
    · exact h6
    · exact ⟨h7, h8⟩

theorem cleanTok_of_plain {t : String} (h : plainTok t.data = true) :
    cleanTok t = t := by
  rw [plainTok, Bool.and_eq_true] at h
  exact cleanTok_plain (List.all_eq_true.mp h.2)

theorem plain_ne_empty {t : String} (h : plainTok t.data = true) : t ≠ "" := by
  rw [plainTok, Bool.and_eq_true] at h
  intro e
  rw [e] at h
  simp at h

theorem normGroup_of_legal {s : Student}
    (hg : s.group = "A" ∨ s.group = "B" ∨ s.group = "C") :
    normGroup s.group = s.group := by
  rcases hg with h | h | h <;> rw [h] <;> decide

theorem processLine_rowOf {s : Student} (hs : goodStudent s) :
    processLine (rowOf s) = some s := by
  have hs2 := hs
  obtain ⟨h1, h2, h3, h4, h5, h6, h7, h8, h9⟩ := hs2
  unfold processLine
  rw [tokensOf_rowOf hs]
  unfold processParts
  have hname : cleanTok s.name = s.name := cleanTok_of_plain h5
  have hget4 : ([String.mk (numStr s.grade), String.mk (numStr s.schoolClass),
      String.mk (numStr s.number), s.group, s.name, s.phone,
      String.mk (quoteRemarks s.remarks)].getD 4 "") = s.name := rfl
  rw [hget4, hname]
  rw [if_neg (plain_ne_empty h5)]
  have hremarks : cleanTok (String.mk (quoteRemarks s.remarks)) = s.remarks := by
    have := @cleanTok_quoted s.remarks.data h9
    simpa [quoteRemarks] using this
  have hgradeTok : cleanTok (String.mk (numStr s.grade)) = String.mk (numStr s.grade) :=
    cleanTok_of_plain (numStr_plain h1)
  have hclassTok : cleanTok (String.mk (numStr s.schoolClass)) =
      String.mk (numStr s.schoolClass) := cleanTok_of_plain (numStr_plain h2)
  have hnumTok : cleanTok (String.mk (numStr s.number)) = String.mk (numStr s.number) :=
    cleanTok_of_plain (numStr_plain h3)
  have hphone : cleanTok s.phone = s.phone := cleanTok_of_plain h6
  simp only [List.getD, List.get?, Option.getD_some, hname, hphone, hremarks,
    hgradeTok, hclassTok, hnumTok]
  rw [parseIntOr1_numStr h1, parseIntOr1_numStr h2, parseIntOr1_numStr h3]
  rw [normGroup_of_legal h4]
  rw [if_neg (plain_ne_empty h5)]

/-! Splitting the exported text back into its lines. -/

theorem splitLines_append_noNL : ∀ {a : List Char} (b : List Char),
    noNL a = true → splitLines (a ++ '\n' :: b) = a :: splitLines b := by
  intro a
  induction a with
  | nil =>
    intro b _
    cases b with
    | nil => rfl
    | cons x t => simp [splitLines]
  | cons c a2 ih =>
    intro b hn
    rw [noNL, List.all_cons, Bool.and_eq_true] at hn
    obtain ⟨hc, ha2⟩ := hn
    have ha2n : noNL a2 = true := ha2
    have hcn : c ≠ '\n' := by intro e; rw [e] at hc; exact absurd hc (by decide)
    have hcr : c ≠ '\r' := by intro e; rw [e] at hc; exact absurd hc (by decide)
    cases a2 with
    | nil =>
      show splitLines (c :: '\n' :: b) = [c] :: splitLines b
      cases b with
      | nil => simp [splitLines, hcn, hcr, consHead]
      | cons y t => simp [splitLines, hcn, hcr, consHead]
    | cons e a3 =>
      have ihh := ih b ha2n
      simp only [List.cons_append] at ihh ⊢
      rw [splitLines, if_neg hcn,
        if_neg (by simp [hcr] : ¬ (c = '\r' && e = '\n') = true), ihh]
      rfl

theorem splitLines_of_noNL : ∀ {a : List Char}, noNL a = true →
    splitLines a = [a] := by
  intro a
  induction a with
  | nil => intro _; rfl
  | cons c a2 ih =>
    intro hn
    rw [noNL, List.all_cons, Bool.and_eq_true] at hn
    obtain ⟨hc, ha2⟩ := hn
    have hcn : c ≠ '\n' := by intro e; rw [e] at hc; exact absurd hc (by decide)
    have hcr : c ≠ '\r' := by intro e; rw [e] at hc; exact absurd hc (by decide)
    cases a2 with
    | nil => simp [splitLines, hcn]
    | cons e a3 =>
      rw [splitLines, if_neg hcn,
        if_neg (by simp [hcr] : ¬ (c = '\r' && e = '\n') = true), ih ha2]
      rfl

theorem splitLines_joinWith : ∀ {ls : List (List Char)}, ls ≠ [] →
    (∀ x ∈ ls, noNL x = true) → splitLines (joinWith '\n' ls) = ls := by
  intro ls
  induction ls with
  | nil => intro h _; exact absurd rfl h
  | cons x ls2 ih =>
    intro _ hall
    cases ls2 with
    | nil => exact splitLines_of_noNL (hall x (by simp))
    | cons y t =>
      show splitLines (x ++ '\n' :: joinWith '\n' (y :: t)) = x :: (y :: t)
      rw [splitLines_append_noNL _ (hall x (by simp)),
        ih (by simp) (fun z hz => hall z (by simp [hz]))]

/-! No newline occurs in an exported row, and a row survives trimming. -/

theorem not_nl_of_not_ws {c : Char} (h : isWs c = false) :
    (!(c = '\n' || c = '\r')) = true := by
  by_cases e1 : c = '\n'
  · rw [e1] at h; exact absurd h (by decide)
  · by_cases e2 : c = '\r'
    · rw [e2] at h; exact absurd h (by decide)
    · simp [e1, e2]

theorem noNL_of_not_ws {l : List Char} (h : ∀ c ∈ l, isWs c = false) :
    noNL l = true := by
  rw [noNL, List.all_eq_true]
  exact fun c hc => not_nl_of_not_ws (h c hc)

theorem escQuotes_mem : ∀ {l : List Char} {c : Char},
    c ∈ escQuotes l → c ∈ l ∨ c = '"' := by
  intro l
  induction l with
  | nil => intro c h; simp [escQuotes] at h
  | cons a t ih =>
    intro c h
    simp only [escQuotes] at h
    by_cases ha : a = '"'
    · rw [if_pos ha] at h
      simp only [List.mem_cons] at h
      rcases h with h | h | h
      · exact Or.inr h
      · exact Or.inr h
      · rcases ih h with h2 | h2
        · exact Or.inl (by simp [h2])
        · exact Or.inr h2
    · rw [if_neg ha] at h
      rcases List.mem_cons.mp h with h2 | h2
      · exact Or.inl (by simp [h2])
      · rcases ih h2 with h3 | h3
        · exact Or.inl (by simp [h3])
        · exact Or.inr h3

theorem noNL_quoteRemarks {r : String} (h : noTermChars r.data = true) :
    noNL (quoteRemarks r) = true := by
  rw [noNL, List.all_eq_true]
  intro c hc
  rw [noTermChars, List.all_eq_true] at h
  simp only [quoteRemarks, List.mem_cons, List.mem_append] at hc
  have hq : (!(('"' : Char) = '\n' || ('"' : Char) = '\r')) = true := by decide
  rcases hc with h1 | h1 | h1
  · rw [h1]; exact hq
  · rcases escQuotes_mem h1 with h2 | h2
    · have := h c h2
      by_cases e1 : c = '\n'
      · rw [e1] at this; exact absurd this (by decide)
      · by_cases e2 : c = '\r'
        · rw [e2] at this; exact absurd this (by decide)
        · simp [e1, e2]
    · rw [h2]; exact hq
  · simp at h1
    rw [h1]; exact hq

theorem plain_not_ws {l : List Char} (h : plainTok l = true) :
    ∀ c ∈ l, isWs c = false := by
  rw [plainTok, Bool.and_eq_true] at h
  intro c hc
  exact (isPlainChar_spec (List.all_eq_true.mp h.2 c hc)).2.2

theorem noNL_joinWith : ∀ {ls : List (List Char)},
    (∀ x ∈ ls, noNL x = true) → noNL (joinWith ',' ls) = true := by
  intro ls
  induction ls with
  | nil => intro _; rfl
  | cons x ls2 ih =>
    intro hall
    cases ls2 with
    | nil => exact hall x (by simp)
    | cons y t =>
      show noNL (x ++ ',' :: joinWith ',' (y :: t)) = true
      rw [noNL, List.all_append, Bool.and_eq_true]
      refine ⟨hall x (by simp), ?_⟩
      rw [List.all_cons, Bool.and_eq_true]
      refine ⟨by decide, ?_⟩
      exact ih (fun z hz => hall z (by simp [hz]))

theorem noNL_rowOf {s : Student} (hs : goodStudent s) : noNL (rowOf s) = true := by
  obtain ⟨h1, h2, h3, h4, h5, h6, h7, h8, h9⟩ := hs
  apply noNL_joinWith
  intro x hx
  simp only [List.mem_cons, List.not_mem_nil, or_false] at hx
  rcases hx with h | h | h | h | h | h | h <;> subst h
  · exact noNL_of_not_ws (fun c hc => isDigit_not_ws
      (by rw [numStr_pos_eq h1] at hc; exact decChars_digits _ c hc))
  · exact noNL_of_not_ws (fun c hc => isDigit_not_ws
      (by rw [numStr_pos_eq h2] at hc; exact decChars_digits _ c hc))
  · exact noNL_of_not_ws (fun c hc => isDigit_not_ws
      (by rw [numStr_pos_eq h3] at hc; exact decChars_digits _ c hc))
  · rcases h4 with h | h | h <;> rw [h] <;> decide
  · exact noNL_of_not_ws (plain_not_ws h5)
  · exact noNL_of_not_ws (plain_not_ws h6)
  · exact noNL_quoteRemarks h8

theorem trimChars_ends {l : List Char}
    (h1 : ∀ c ∈ l.head?, isWs c = false)
    (h2 : ∀ c ∈ l.getLast?, isWs c = false) : trimChars l = l := by
  unfold trimChars
  rw [dropWhile_head_stop h1]
  rw [dropWhile_head_stop (fun c hc => h2 c (by rwa [List.head?_reverse] at hc))]
  rw [List.reverse_reverse]

theorem joinWith_ne_nil_last : ∀ (t : List (List Char)) {x : List Char},
    x ≠ [] → joinWith ',' (t ++ [x]) ≠ [] := by
  intro t
  cases t with
  | nil => intro x hx; exact hx
  | cons b t2 =>
    intro x hx
    cases t2 with
    | nil =>
      show b ++ ',' :: joinWith ',' [x] ≠ []
      simp
    | cons d t3 =>
      show b ++ ',' :: joinWith ',' ((d :: t3) ++ [x]) ≠ []
      simp

theorem joinWith_getLast? : ∀ (ls : List (List Char)) {x : List Char}, x ≠ [] →
    (joinWith ',' (ls ++ [x])).getLast? = x.getLast? := by
  intro ls
  induction ls with
  | nil => intro x _; rfl
  | cons a t ih =>
    intro x hx
    have hstep : joinWith ',' ((a :: t) ++ [x]) =
        a ++ ',' :: joinWith ',' (t ++ [x]) := by
      cases t with
      | nil => rfl
      | cons b t2 => rfl
    rw [hstep,
      List.getLast?_append_of_ne_nil a (by simp),
      show (',' :: joinWith ',' (t ++ [x])) = [','] ++ joinWith ',' (t ++ [x]) from rfl,
      List.getLast?_append_of_ne_nil [','] (joinWith_ne_nil_last t hx),
      ih hx]

theorem quoteRemarks_getLast? (r : String) :
    (quoteRemarks r).getLast? = some '"' := by
  show (('"' :: escQuotes r.data) ++ ['"']).getLast? = some '"'
  rw [List.getLast?_concat]

theorem rowOf_head_digit {s : Student} (hs : goodStudent s) :
    ∀ c ∈ (rowOf s).head?, isWs c = false := by
  obtain ⟨h1, _, _, _, _, _, _, _, _⟩ := hs
  intro c hc
  have hrow : rowOf s = numStr s.grade ++ ',' ::
      joinWith ',' [numStr s.schoolClass, numStr s.number, s.group.data,
        s.name.data, s.phone.data, quoteRemarks s.remarks] := rfl
  rw [hrow, numStr_pos_eq h1] at hc
  cases hd : decChars s.grade.toNat with
  | nil => exact absurd hd (decChars_ne_nil _)
  | cons d t =>
    rw [hd] at hc
    simp only [List.cons_append, List.head?_cons, Option.mem_def,
      Option.some.injEq] at hc
    subst hc
    exact isDigit_not_ws (decChars_digits _ _ (by rw [hd]; simp))

theorem rowOf_getLast_quote (s : Student) :
    (rowOf s).getLast? = some '"' := by
  have hrow : rowOf s = joinWith ','
      ([numStr s.grade, numStr s.schoolClass, numStr s.number, s.group.data,
        s.name.data, s.phone.data] ++ [quoteRemarks s.remarks]) := rfl
  rw [hrow, joinWith_getLast? _ (by simp [quoteRemarks]), quoteRemarks_getLast?]

theorem trimChars_rowOf {s : Student} (hs : goodStudent s) :
    trimChars (rowOf s) = rowOf s := by
  apply trimChars_ends (rowOf_head_digit hs)
  intro c hc
  rw [rowOf_getLast_quote s] at hc
  simp only [Option.mem_def, Option.some.injEq] at hc
  subst hc
  decide

theorem rowOf_ne_nil (s : Student) : rowOf s ≠ [] := by
  intro e
  have := congrArg List.getLast? e
  rw [rowOf_getLast_quote s] at this
  simp at this

/-! The whole import pipeline applied to the exported text. -/

theorem filterMap_rows {l : List Student} (h : ∀ s ∈ l, goodStudent s) :
    (l.map rowOf).filterMap processLine = l := by
  induction l with
  | nil => rfl
  | cons s t ih =>
    rw [List.map_cons, List.filterMap_cons, processLine_rowOf (h s (by simp)),
      ih (fun z hz => h z (by simp [hz]))]

theorem sortStudents_ne_nil {l : List Student} (h : l ≠ []) :
    sortStudents l ≠ [] := by
  intro e
  exact h (((List.perm_insertionSort sortLe l).symm.trans (e ▸ List.Perm.refl _)).eq_nil)

theorem mem_sortStudents {l : List Student} {s : Student} :
    s ∈ sortStudents l ↔ s ∈ l := List.mem_insertionSort sortLe

theorem importedStudents_export {l : List Student} (hne : l ≠ [])
    (hgood : ∀ s ∈ l, goodStudent s) :
    importedStudents ('\ufeff' :: csvContent l) = sortStudents l := by
  have hgood2 : ∀ s ∈ sortStudents l, goodStudent s :=
    fun s hsmem => hgood s (mem_sortStudents.mp hsmem)
  obtain ⟨s0, srest, hsort⟩ := List.exists_cons_of_ne_nil (sortStudents_ne_nil hne)
  show (((splitLines ('\ufeff' :: csvContent l)).drop 1).filter
      (fun ln => !(trimChars ln).isEmpty)).filterMap processLine = sortStudents l
  have hsplit : splitLines ('\ufeff' :: csvContent l) =
      ('\ufeff' :: headerRow) :: (sortStudents l).map rowOf := by
    have hshape : ('\ufeff' :: csvContent l) = ('\ufeff' :: headerRow) ++
        '\n' :: joinWith '\n' ((sortStudents l).map rowOf) := by
      show ('\ufeff' :: csvContent l) = '\ufeff' :: (headerRow ++
        '\n' :: joinWith '\n' ((sortStudents l).map rowOf))
      rw [csvContent]
      rw [hsort, List.map_cons]
      rfl
    rw [hshape, splitLines_append_noNL _ (by decide)]
    rw [splitLines_joinWith (by simp [hsort]) ?_]
    intro x hx
    rw [List.mem_map] at hx
    obtain ⟨t, ht, rfl⟩ := hx
    exact noNL_rowOf (hgood2 t ht)
  rw [hsplit, List.drop_one, List.tail_cons]
  rw [List.filter_eq_self.mpr ?_]
  · exact filterMap_rows hgood2
  · intro r hr
    rw [List.mem_map] at hr
    obtain ⟨t, ht, rfl⟩ := hr
    rw [trimChars_rowOf (hgood2 t ht)]
    cases he : rowOf t with
    | nil => exact absurd he (rowOf_ne_nil t)
    | cons c cs => rfl

/-! The comparator of exportToCsv induces the four-key lexicographic
order, is total and transitive, and insertion sort on it is stable. -/

theorem lexLt_iff_lex : ∀ (x y : List Char),
    lexLt x y = true ↔ List.Lex (fun c d : Char => c < d) x y := by
  intro x
  induction x with
  | nil =>
    intro y
    cases y with
    | nil =>
      constructor
      · intro h; exact absurd h (by decide)
      · intro h; exact absurd h (List.Lex.not_nil_right _ _)
    | cons b bs =>
      constructor
      · intro _; exact List.Lex.nil
      · intro _; rfl
  | cons a as ih =>
    intro y
    cases y with
    | nil =>
      constructor
      · intro h; exact absurd h (by simp [lexLt])
      · intro h; exact absurd h (List.Lex.not_nil_right _ _)
    | cons b bs =>
      show (if a < b then true else if b < a then false else lexLt as bs) = true ↔ _
      by_cases hab : a < b
      · rw [if_pos hab]
        exact ⟨fun _ => List.Lex.rel hab, fun _ => rfl⟩
      · rw [if_neg hab]
        by_cases hba : b < a
        · rw [if_pos hba]
          constructor
          · intro h; exact absurd h (by decide)
          · intro h
            cases h with
            | cons h2 => exact absurd hba (lt_irrefl _)
            | rel h2 => exact absurd h2 hab
        · rw [if_neg hba]
          have heq : a = b := le_antisymm (not_lt.mp hba) (not_lt.mp hab)
          subst heq
          rw [ih bs]
          constructor
          · exact List.Lex.cons
          · intro h
            cases h with
            | cons h2 => exact h2
            | rel h2 => exact absurd h2 (lt_irrefl _)

theorem lexLt_iff_lt (a b : String) : lexLt a.data b.data = true ↔ a < b := by
  rw [String.lt_iff_toList_lt]
  exact lexLt_iff_lex a.data b.data

theorem localeCmp_le_iff {a b : String} (hne : a ≠ b) :
    localeCmp a b ≤ 0 ↔ a < b := by
  unfold localeCmp
  rcases lt_trichotomy a b with h | h | h
  · rw [if_pos ((lexLt_iff_lt a b).mpr h)]
    simp [h]
  · exact absurd h hne
  · have h1 : lexLt a.data b.data = false := by
      cases he : lexLt a.data b.data with
      | false => rfl
      | true => exact absurd ((lexLt_iff_lt a b).mp he) (not_lt_of_gt h)
    have h2 : lexLt b.data a.data = true := (lexLt_iff_lt b a).mpr h
    rw [h1, h2]
    simp [not_lt_of_gt h]

theorem sortLe_iff_specLe (a b : Student) : sortLe a b ↔ specLe a b := by
  unfold sortLe cmpStudent specLe
  by_cases hg : a.group = b.group
  · rw [if_neg (not_not_intro hg)]
    by_cases h1 : a.grade = b.grade
    · rw [if_neg (not_not_intro h1)]
      by_cases h2 : a.schoolClass = b.schoolClass
      · rw [if_neg (not_not_intro h2)]
        simp only [hg, h1, h2, lt_self_iff_false, false_or, true_and,
          sub_nonpos]
      · rw [if_pos h2]
        simp only [hg, h1, lt_self_iff_false, false_or, true_and, sub_nonpos]
        constructor
        · intro h; exact Or.inl (by omega)
        · intro h
          rcases h with h | ⟨he, _⟩
          · omega
          · exact absurd he h2
    · rw [if_pos h1]
      simp only [hg, lt_self_iff_false, false_or, true_and, sub_nonpos]
      constructor
      · intro h; exact Or.inl (by omega)
      · intro h
        rcases h with h | ⟨he, _⟩
        · omega
        · exact absurd he h1
  · rw [if_pos hg, localeCmp_le_iff hg]
    simp [hg]

theorem specLe_iff_keyOf (a b : Student) : specLe a b ↔ keyOf a ≤ keyOf b := by
  unfold specLe keyOf
  rw [Prod.Lex.le_iff, Prod.Lex.le_iff, Prod.Lex.le_iff]

instance : IsTrans Student sortLe := by
  constructor
  intro a b c hab hbc
  rw [sortLe_iff_specLe, specLe_iff_keyOf] at hab hbc ⊢
  exact le_trans hab hbc

instance : IsTotal Student sortLe := by
  constructor
  intro a b
  rw [sortLe_iff_specLe, specLe_iff_keyOf, sortLe_iff_specLe, specLe_iff_keyOf]
  exact le_total _ _

theorem sortStudents_sorted (l : List Student) :
    (sortStudents l).Pairwise specLe := by
  have h := List.sorted_insertionSort sortLe l
  exact h.imp (fun hab => (sortLe_iff_specLe _ _).mp hab)

theorem sortStudents_perm (l : List Student) : (sortStudents l).Perm l :=
  List.perm_insertionSort sortLe l

theorem sortStudents_key_stable (l : List Student)
    (k : String ×ₗ (Int ×ₗ (Int ×ₗ Int))) :
    (sortStudents l).filter (fun s => keyOf s = k) =
      l.filter (fun s => keyOf s = k) := by
  have hA : (l.filter (fun s => keyOf s = k)).Pairwise sortLe := by
    apply List.pairwise_of_forall_mem_list
    intro x hx y hy
    rw [List.mem_filter] at hx hy
    have hkx : keyOf x = k := by simpa using hx.2
    have hky : keyOf y = k := by simpa using hy.2
    rw [sortLe_iff_specLe, specLe_iff_keyOf, hkx, hky]
  have hsub : List.Sublist (l.filter (fun s => keyOf s = k)) (sortStudents l) :=
    List.sublist_insertionSort hA (List.filter_sublist l)
  have hself : (l.filter (fun s => keyOf s = k)).filter
      (fun s => keyOf s = k) = l.filter (fun s => keyOf s = k) := by
    apply List.filter_eq_self.mpr
    intro x hx
    exact (List.mem_filter.mp hx).2
  have h2 : List.Sublist (l.filter (fun s => keyOf s = k))
      ((sortStudents l).filter (fun s => keyOf s = k)) := by
    have h3 := hsub.filter (fun s => decide (keyOf s = k))
    rwa [hself] at h3
  have hperm : ((sortStudents l).filter (fun s => keyOf s = k)).Perm
      (l.filter (fun s => keyOf s = k)) :=
    (sortStudents_perm l).filter _
  exact (h2.eq_of_length hperm.length_eq.symm).symm

/-! Helper facts about the field normalizers. -/

theorem parseIntOr1_ne_zero (s : String) : parseIntOr1 s ≠ 0 := by
  unfold parseIntOr1
  cases jsParseInt s with
  | none => simp
  | some v =>
    by_cases hv : v = 0
    · simp [hv]
    · simp [hv]

theorem normGroup_mem (t : String) :
    normGroup t = "A" ∨ normGroup t = "B" ∨ normGroup t = "C" := by
  unfold normGroup
  by_cases h : (upperStr (cleanTok t) = "A" || upperStr (cleanTok t) = "B" ||
      upperStr (cleanTok t) = "C") = true
  · rw [if_pos h]
    have h2 : (upperStr (cleanTok t) = "A" ∨ upperStr (cleanTok t) = "B") ∨
        upperStr (cleanTok t) = "C" := by simpa using h
    tauto
  · rw [if_neg h]
    exact Or.inl rfl

theorem processLine_fields {line : List Char} {r : Student}
    (h : processLine line = some r) :
    cleanTok ((tokensOf line).getD 4 "") ≠ "" ∧
    r = { grade := parseIntOr1 (cleanTok ((tokensOf line).getD 0 "")),
          schoolClass := parseIntOr1 (cleanTok ((tokensOf line).getD 1 "")),
          number := parseIntOr1 (cleanTok ((tokensOf line).getD 2 "")),
          group := normGroup ((tokensOf line).getD 3 ""),
          name := (let n := cleanTok ((tokensOf line).getD 4 "");
                   if n = "" then "이름없음" else n),
          phone := cleanTok ((tokensOf line).getD 5 ""),
          remarks := cleanTok ((tokensOf line).getD 6 "") } := by
  unfold processLine processParts at h
  split at h
  · cases h
  · rename_i hguard
    exact ⟨hguard, (Option.some.inj h).symm⟩

/-- Claim C4 (corrected): for every imported row that produces a record,
the stored grade, schoolClass and number are nonzero integers; a token
that parses to NaN or to 0 (non-numeric, missing, or zero input) coerces
to 1. A negative numeric token, however, is stored as its negative value,
so the original claim that the fields are always positive is false. -/
theorem c4_numericFields :
    (∀ (line : List Char) (r : Student), processLine line = some r →
      r.grade ≠ 0 ∧ r.schoolClass ≠ 0 ∧ r.number ≠ 0) ∧
    (∀ s : String, (jsParseInt s = none ∨ jsParseInt s = some 0) →
      parseIntOr1 s = 1) := by
  constructor
  · intro line r h
    obtain ⟨_, rfl⟩ := processLine_fields h
    exact ⟨parseIntOr1_ne_zero _, parseIntOr1_ne_zero _, parseIntOr1_ne_zero _⟩
  · intro s h
    unfold parseIntOr1
    rcases h with h | h <;> rw [h] <;> simp

/-- Witness for C4: a concrete short row produces grade 7, visibly
nonzero, and a non-numeric token coerces to 1. -/
theorem c4_numericFields_witness :
    ((⟨7, 2, 3, "A", "Kim", "", ""⟩ : Student).grade ≠ 0 ∧
      (⟨7, 2, 3, "A", "Kim", "", ""⟩ : Student).schoolClass ≠ 0 ∧
      (⟨7, 2, 3, "A", "Kim", "", ""⟩ : Student).number ≠ 0) ∧
    parseIntOr1 "abc" = 1 :=
  ⟨c4_numericFields.1 ("7,2,3,A,Kim".data) ⟨7, 2, 3, "A", "Kim", "", ""⟩ (by decide),
   c4_numericFields.2 "abc" (Or.inl (by decide))⟩

/-- Counterexample for C4 as frozen: the row with grade token -3 stores
grade -3, which is not a positive integer. -/
theorem c4_counterexample :
    (processLine ("-3,2,3,A,Kim".data)).map Student.grade = some (-3) ∧
    ¬ (1 ≤ (-3 : Int)) := by
  constructor
  · decide
  · decide

/-- Claim C7 (confirmed): every record produced by import stores a group
that is exactly A, B or C: the cleaned fourth token is uppercased, kept
when it is exactly one of A, B, C, and otherwise coerced to A. -/
theorem c7_groupInvariant : ∀ (line : List Char) (r : Student),
    processLine line = some r →
    r.group = normGroup ((tokensOf line).getD 3 "") ∧
    (r.group = "A" ∨ r.group = "B" ∨ r.group = "C") := by
  intro line r h
  obtain ⟨_, rfl⟩ := processLine_fields h
  exact ⟨rfl, normGroup_mem _⟩

/-- Witness for C7: a lowercase group token b is stored as B. -/
theorem c7_groupInvariant_witness :
    (⟨1, 2, 3, "B", "Kim", "", ""⟩ : Student).group = "A" ∨
    (⟨1, 2, 3, "B", "Kim", "", ""⟩ : Student).group = "B" ∨
    (⟨1, 2, 3, "B", "Kim", "", ""⟩ : Student).group = "C" :=
  (c7_groupInvariant ("1,2,3,b,Kim".data) ⟨1, 2, 3, "B", "Kim", "", ""⟩ (by decide)).2

/-- Claim C8 (confirmed): a data row whose fifth raw token cleans to the
empty string produces no record; the per-row processing returns none, so
the import appends nothing from that row. -/
theorem c8_emptyNameSkipped : ∀ line : List Char,
    cleanTok ((tokensOf line).getD 4 "") = "" → processLine line = none := by
  intro line h
  unfold processLine processParts
  rw [if_pos h]

/-- Witness for C8: a row of six commas is skipped. -/
theorem c8_emptyNameSkipped_witness : processLine (",,,,,,".data) = none :=
  c8_emptyNameSkipped (",,,,,,".data) (by decide)

/-- Claim C9 (confirmed): a data row with fewer than seven tokens but a
non-empty cleaned name token still produces a record (import does not
fail); the missing remarks token becomes the empty string, a missing
phone token becomes the empty string, and an empty numeric token
coerces to 1. -/
theorem c9_shortRowDefaults : ∀ line : List Char,
    (tokensOf line).length < 7 →
    cleanTok ((tokensOf line).getD 4 "") ≠ "" →
    processLine line ≠ none ∧
    ∀ r, processLine line = some r →
      r.remarks = "" ∧
      ((tokensOf line).length ≤ 5 → r.phone = "") ∧
      (cleanTok ((tokensOf line).getD 0 "") = "" → r.grade = 1) := by
  intro line hlen hname
  have hrun : processLine line =
      some { grade := parseIntOr1 (cleanTok ((tokensOf line).getD 0 "")),
             schoolClass := parseIntOr1 (cleanTok ((tokensOf line).getD 1 "")),
             number := parseIntOr1 (cleanTok ((tokensOf line).getD 2 "")),
             group := normGroup ((tokensOf line).getD 3 ""),
             name := (let n := cleanTok ((tokensOf line).getD 4 "");
                      if n = "" then "이름없음" else n),
             phone := cleanTok ((tokensOf line).getD 5 ""),
             remarks := cleanTok ((tokensOf line).getD 6 "") } := by
    unfold processLine processParts
    rw [if_neg hname]
  constructor
  · rw [hrun]; simp
  · intro r hr
    rw [hrun] at hr
    obtain rfl := (Option.some.inj hr).symm
    refine ⟨?_, ?_, ?_⟩
    · show cleanTok ((tokensOf line).getD 6 "") = ""
      rw [List.getD_eq_default _ _ (by omega)]
      rfl
    · intro h5
      show cleanTok ((tokensOf line).getD 5 "") = ""
      rw [List.getD_eq_default _ _ (by omega)]
      rfl
    · intro h0
      show parseIntOr1 (cleanTok ((tokensOf line).getD 0 "")) = 1
      rw [h0]
      rfl

/-- Witness for C9: a five-token row produces a record with empty phone
and remarks. -/
theorem c9_shortRowDefaults_witness :
    processLine ("1,2,3,A,Kim".data) ≠ none ∧
    ((⟨1, 2, 3, "A", "Kim", "", ""⟩ : Student).remarks = "" ∧
      ((tokensOf ("1,2,3,A,Kim".data)).length ≤ 5 →
        (⟨1, 2, 3, "A", "Kim", "", ""⟩ : Student).phone = "") ∧
      (cleanTok ((tokensOf ("1,2,3,A,Kim".data)).getD 0 "") = "" →
        (⟨1, 2, 3, "A", "Kim", "", ""⟩ : Student).grade = 1)) :=
  ⟨(c9_shortRowDefaults ("1,2,3,A,Kim".data) (by decide) (by decide)).1,
   (c9_shortRowDefaults ("1,2,3,A,Kim".data) (by decide) (by decide)).2
     ⟨1, 2, 3, "A", "Kim", "", ""⟩ (by decide)⟩

/-- Claim C10 (confirmed): every record produced by import stores exactly
the cleaned fifth token as its name, and that name is non-empty; the
placeholder substitution branch never executes, because rows whose
cleaned name token is empty are skipped before it runs. -/
theorem c10_namePlaceholderDead : ∀ (line : List Char) (r : Student),
    processLine line = some r →
    r.name = cleanTok ((tokensOf line).getD 4 "") ∧ r.name ≠ "" := by
  intro line r h
  obtain ⟨hguard, rfl⟩ := processLine_fields h
  constructor
  · show (let n := cleanTok ((tokensOf line).getD 4 "");
      if n = "" then "이름없음" else n) = cleanTok ((tokensOf line).getD 4 "")
    simp only [if_neg hguard]
  · show (let n := cleanTok ((tokensOf line).getD 4 "");
      if n = "" then "이름없음" else n) ≠ ""
    simp only [if_neg hguard]
    exact hguard

/-- Witness for C10: a concrete row stores the cleaned name Kim. -/
theorem c10_namePlaceholderDead_witness :
    (⟨1, 2, 3, "A", "Kim", "", ""⟩ : Student).name =
      cleanTok ((tokensOf ("1,2,3,a,Kim".data)).getD 4 "") ∧
    (⟨1, 2, 3, "A", "Kim", "", ""⟩ : Student).name ≠ "" :=
  c10_namePlaceholderDead ("1,2,3,a,Kim".data) ⟨1, 2, 3, "A", "Kim", "", ""⟩
    (by decide)

/-- Claim C1 (corrected): the CSV round-trip is exact on export-regular
record sets: for every non-empty set whose records have positive numeric
fields, legal groups, non-empty name and phone tokens free of commas,
quotes and whitespace, and remarks free of line terminators, of leading
or trailing whitespace, and of a quote followed by optional whitespace
and a comma, re-importing the exported text yields exactly the same
multiset of seven-field values (in export-sorted order). On general
record sets the round-trip fails — see the counterexample. -/
theorem c1_roundTrip : ∀ (l : List Student) (t : List Char),
    exportedText l = some t → (∀ s ∈ l, goodStudent s) →
    importedStudents t = sortStudents l ∧ (importedStudents t).Perm l := by
  intro l t hexp hgood
  unfold exportedText at hexp
  by_cases hne : l.isEmpty
  · rw [if_pos hne] at hexp
    cases hexp
  · rw [if_neg hne] at hexp
    have hlne : l ≠ [] := by
      cases l with
      | nil => simp at hne
      | cons a t2 => simp
    obtain rfl := (Option.some.inj hexp).symm
    rw [importedStudents_export hlne hgood]
    exact ⟨rfl, sortStudents_perm l⟩

/-- Witness for C1: one export-regular record with a comma and quotes in
its remarks round-trips exactly. -/
theorem c1_roundTrip_witness :
    importedStudents ('﻿' ::
        csvContent [⟨1, 2, 3, "A", "Kim", "010-1111", "Good, \"fine\""⟩]) =
      sortStudents [⟨1, 2, 3, "A", "Kim", "010-1111", "Good, \"fine\""⟩] ∧
    (importedStudents ('﻿' ::
        csvContent [⟨1, 2, 3, "A", "Kim", "010-1111", "Good, \"fine\""⟩])).Perm
      [⟨1, 2, 3, "A", "Kim", "010-1111", "Good, \"fine\""⟩] :=
  c1_roundTrip [⟨1, 2, 3, "A", "Kim", "010-1111", "Good, \"fine\""⟩] _
    (by decide) (by decide)

/-- Counterexample for C1 as frozen: a record with an empty phone does
not round-trip — the tokenizer drops the empty field, so the remarks
value r is imported as the phone and the remarks become empty. -/
theorem c1_counterexample :
    exportedText [⟨1, 2, 3, "A", "Kim", "", "r"⟩] =
      some ('﻿' :: csvContent [⟨1, 2, 3, "A", "Kim", "", "r"⟩]) ∧
    importedStudents ('﻿' :: csvContent [⟨1, 2, 3, "A", "Kim", "", "r"⟩]) =
      [⟨1, 2, 3, "A", "Kim", "r", ""⟩] ∧
    ¬ (importedStudents ('﻿' ::
        csvContent [⟨1, 2, 3, "A", "Kim", "", "r"⟩])).Perm
      [⟨1, 2, 3, "A", "Kim", "", "r"⟩] := by
  refine ⟨by decide, by decide, by decide⟩

/-- Claim C2 (corrected): the tokenizer produces one raw token per
comma-separated field only for fields that are non-empty runs without
quotes, commas or whitespace, or safely quoted segments; such fields
tokenize in order, one token each. Other fields can be dropped — an
empty field yields no token at all, as the counterexample shows — and
the fallback plain comma split is used exactly when the regex produces
zero matches on the whole line. -/
theorem c2_tokenizer :
    (∀ (fs : List FieldSpec), fs ≠ [] → (∀ f ∈ fs, goodSpec f) →
      tokensOf (joinWith ',' (fs.map renderSpec)) = fs.map specToken) ∧
    (∀ line : List Char, jsMatchAll line = [] →
      tokensOf line = (splitCommaChars line).map String.mk) := by
  constructor
  · exact tokensOf_join
  · intro line h
    unfold tokensOf
    rw [h]

/-- Witness for C2: a plain field and a quoted field containing a comma
tokenize one-to-one; a line of a single comma has no match and falls
back to the plain split. -/
theorem c2_tokenizer_witness :
    tokensOf (joinWith ','
        ([FieldSpec.plainF "a", FieldSpec.quotedF "b,c"].map renderSpec)) =
      [FieldSpec.plainF "a", FieldSpec.quotedF "b,c"].map specToken ∧
    tokensOf (",".data) = (splitCommaChars (",".data)).map String.mk :=
  ⟨c2_tokenizer.1 [FieldSpec.plainF "a", FieldSpec.quotedF "b,c"] (by simp)
      (by
        intro f hf
        simp only [List.mem_cons, List.not_mem_nil, or_false] at hf
        rcases hf with h | h <;> subst h
        · show plainTok "a".data = true
          decide
        · refine ⟨?_, ?_⟩ <;> decide),
   c2_tokenizer.2 (",".data) (by decide)⟩

/-- Counterexample for C2 as frozen: the line a,,b has three fields but
tokenizes to two tokens — the empty field yields no token — and no
fallback occurs since the regex matched. -/
theorem c2_counterexample :
    tokensOf ("a,,b".data) = ["a", "b"] ∧
    tokensOf ("a,,b".data) ≠ ["a", "", "b"] := by
  refine ⟨by decide, by decide⟩

/-- Claim C3 (corrected): only the remarks column is ever quoted by the
exporter — every other field is emitted verbatim even when it contains a
comma or quote (see the counterexample, where a name containing a comma
corrupts the row) — and remarks are always wrapper-quoted with internal
quotes doubled; the remarks value He said, "hi" exports to its doubled
form and re-imports to the original string. -/
theorem c3_remarksQuoting :
    (∀ s : Student, rowOf s = joinWith ','
      [numStr s.grade, numStr s.schoolClass, numStr s.number, s.group.data,
       s.name.data, s.phone.data, '"' :: (escQuotes s.remarks.data ++ ['"'])]) ∧
    quoteRemarks "He said, \"hi\"" = "\"He said, \"\"hi\"\"\"".data ∧
    importedStudents ('﻿' :: csvContent
        [⟨1, 2, 3, "A", "Kim", "010-1111", "He said, \"hi\""⟩]) =
      [⟨1, 2, 3, "A", "Kim", "010-1111", "He said, \"hi\""⟩] := by
  refine ⟨fun s => rfl, by decide, by decide⟩

/-- Counterexample for C3 as frozen: a name field containing a comma is
not quoted in the exported text, so the row has eight raw columns and
re-imports with the corrupted name x. -/
theorem c3_counterexample :
    csvContent [⟨1, 2, 3, "A", "x,y", "p", "r"⟩] =
      ("학년,반,번호,방과후그룹,이름,전화번호,비고\n1,2,3,A,x,y,p,\"r\"").data ∧
    (importedStudents ('﻿' ::
        csvContent [⟨1, 2, 3, "A", "x,y", "p", "r"⟩])).map Student.name =
      ["x"] := by
  refine ⟨by decide, by decide⟩

/-- Claim C5 (corrected): export under a group scope leaves the stored
sequence unchanged, because filter produced a fresh array; but export
under scope ALL sorts the state array in place, so afterwards the list
operation returns the export order, not the insertion order — the
original claim fails, see the counterexample. -/
theorem c5_exportEffect : ∀ students : List Student,
    (∀ g : String, exportPost students (ViewMode.only g) = students) ∧
    (students = [] → exportPost students ViewMode.all = students) ∧
    (students ≠ [] → exportPost students ViewMode.all = sortStudents students) := by
  intro students
  refine ⟨?_, ?_, ?_⟩
  · intro g
    unfold exportPost
    split
    · rfl
    · rfl
  · intro h
    subst h
    rfl
  · intro h
    have hne : ¬ (filteredStudents students ViewMode.all).isEmpty = true := by
      cases students with
      | nil => exact absurd rfl h
      | cons a t => simp [filteredStudents]
    unfold exportPost
    rw [if_neg hne]

/-- Witness for C5: on a two-record roster, a group-scope export keeps
the store and an ALL-scope export leaves it sorted. -/
theorem c5_exportEffect_witness :
    exportPost [⟨1, 1, 1, "B", "Lee", "p", "r"⟩, ⟨1, 1, 1, "A", "Kim", "p", "r"⟩]
      (ViewMode.only "A") =
      [⟨1, 1, 1, "B", "Lee", "p", "r"⟩, ⟨1, 1, 1, "A", "Kim", "p", "r"⟩] ∧
    exportPost [⟨1, 1, 1, "B", "Lee", "p", "r"⟩, ⟨1, 1, 1, "A", "Kim", "p", "r"⟩]
      ViewMode.all =
      sortStudents [⟨1, 1, 1, "B", "Lee", "p", "r"⟩, ⟨1, 1, 1, "A", "Kim", "p", "r"⟩] :=
  ⟨(c5_exportEffect _).1 "A", (c5_exportEffect _).2.2 (by decide)⟩

/-- Counterexample for C5 as frozen: after an ALL-scope export of an
out-of-order roster, the list operation no longer returns the records in
insertion order. -/
theorem c5_counterexample :
    filteredStudents (exportPost
        [⟨1, 1, 1, "B", "Lee", "p", "r"⟩, ⟨1, 1, 1, "A", "Kim", "p", "r"⟩]
        ViewMode.all) ViewMode.all ≠
    filteredStudents
        [⟨1, 1, 1, "B", "Lee", "p", "r"⟩, ⟨1, 1, 1, "A", "Kim", "p", "r"⟩]
        ViewMode.all := by
  decide

/-- Claim C6 (confirmed): for every non-empty record set the export
emits its rows in the order of a stable sort by the chain group
(lexicographically ascending), then grade, then schoolClass, then
number: the sorted sequence is pairwise ordered by that chain, is a
permutation of the input, and records equal on all four keys keep their
relative input order. -/
theorem c6_exportSort : ∀ l : List Student, l ≠ [] →
    csvContent l = joinWith '\n' (headerRow :: (sortStudents l).map rowOf) ∧
    (sortStudents l).Pairwise specLe ∧
    (sortStudents l).Perm l ∧
    ∀ k, (sortStudents l).filter (fun s => keyOf s = k) =
      l.filter (fun s => keyOf s = k) := by
  intro l _
  exact ⟨rfl, sortStudents_sorted l, sortStudents_perm l,
    sortStudents_key_stable l⟩

/-- Witness for C6: the two-record roster sorts into the lexicographic
chain order while keeping the relative order inside each key class. -/
theorem c6_exportSort_witness :
    (sortStudents [⟨1, 1, 1, "B", "Lee", "p", "r"⟩,
        ⟨1, 1, 1, "A", "Kim", "p", "r"⟩]).Pairwise specLe ∧
    (sortStudents [⟨1, 1, 1, "B", "Lee", "p", "r"⟩,
        ⟨1, 1, 1, "A", "Kim", "p", "r"⟩]).Perm
      [⟨1, 1, 1, "B", "Lee", "p", "r"⟩, ⟨1, 1, 1, "A", "Kim", "p", "r"⟩] ∧
    (sortStudents [⟨1, 1, 1, "B", "Lee", "p", "r"⟩,
        ⟨1, 1, 1, "A", "Kim", "p", "r"⟩]).filter
      (fun s => keyOf s = keyOf ⟨1, 1, 1, "A", "Kim", "p", "r"⟩) =
      [⟨1, 1, 1, "B", "Lee", "p", "r"⟩, ⟨1, 1, 1, "A", "Kim", "p", "r"⟩].filter
      (fun s => keyOf s = keyOf ⟨1, 1, 1, "A", "Kim", "p", "r"⟩) :=
  ⟨(c6_exportSort _ (by decide)).2.1,
   (c6_exportSort _ (by decide)).2.2.1,
   (c6_exportSort _ (by decide)).2.2.2 _⟩

end Shool
